import Mathlib

/-!
# Verification of the PyTables → ROOT TTree conversion engine

Shallow embedding of `PyTables2RootTTree/convert_table.py` (the current
implementation of the package; the sibling `PyTables2RootTTree.py` scripts are
earlier revisions of the same functions).  Pure Python functions become Lean
functions; the dictionary lookups of the type mappers become `Option`-valued
lookups (a missing key raises `KeyError`, i.e. `none`/`Except.error`); the
chunked copy loop over `range(0, rows, chunk_size)` becomes an explicit list
of chunk start indices; the ROOT side effects (branch creation, `Fill`,
`Write(kOverwrite)`, `Close`) are modelled as explicit state: a tree is its
list of branch descriptors, a filled record is the committed `n_entries`
value plus the per-branch buffers, and the output file is an association
list of tree name to tree data.
-/

namespace PyTables2RootTTree

/-- A column of a pytables table: its name, its numpy scalar dtype string
(`str(table.dtype[column_name])`), and its cell values.  Cell values are
opaque to the converter (the copy loop moves them without inspecting them),
so they are a type parameter `α`. -/
structure Column (α : Type) where
  name : String
  dtype : String
  values : List α
  deriving DecidableEq

/-- A pytables table: `table.name`, `table.shape[0]` (`nrows`) and the
ordered column list (`table.dtype.names` with the dtype of each). -/
structure Table (α : Type) where
  name : String
  nrows : Nat
  columns : List (Column α)
  deriving DecidableEq

/-- Function `get_root_type_descriptor` of `convert_table.py`, lines 13–32: the
dictionary from numpy dtype strings to ROOT branch type codes.  A Python
dict lookup with a missing key raises `KeyError`, modelled as `none`. -/
def get_root_type_descriptor (numpy_type_descriptor : String) : Option String :=
  if numpy_type_descriptor = "int64" then some "L"
  else if numpy_type_descriptor = "uint64" then some "l"
  else if numpy_type_descriptor = "int32" then some "I"
  else if numpy_type_descriptor = "uint32" then some "i"
  else if numpy_type_descriptor = "int16" then some "S"
  else if numpy_type_descriptor = "uint16" then some "s"
  else if numpy_type_descriptor = "int8" then some "B"
  else if numpy_type_descriptor = "uint8" then some "b"
  else if numpy_type_descriptor = "float64" then some "D"
  else if numpy_type_descriptor = "float32" then some "F"
  else if numpy_type_descriptor = "bool" then some "O"
  else none

/-- Function `get_c_type_descriptor` of `convert_table.py`, lines 35–54: the
dictionary from numpy dtype strings to the ctypes type used for the
branch buffer, recorded here by the ctypes type's name. -/
def get_c_type_descriptor (numpy_type_descriptor : String) : Option String :=
  if numpy_type_descriptor = "int64" then some "c_int64"
  else if numpy_type_descriptor = "uint64" then some "c_uint64"
  else if numpy_type_descriptor = "int32" then some "c_int32"
  else if numpy_type_descriptor = "uint32" then some "c_uint32"
  else if numpy_type_descriptor = "int16" then some "c_int16"
  else if numpy_type_descriptor = "uint16" then some "c_uint16"
  else if numpy_type_descriptor = "int8" then some "c_int8"
  else if numpy_type_descriptor = "uint8" then some "c_uint8"
  else if numpy_type_descriptor = "float64" then some "c_double"
  else if numpy_type_descriptor = "float32" then some "c_float"
  else if numpy_type_descriptor = "bool" then some "c_bool"
  else none

/-- Byte width of each ROOT branch type code appearing in
`get_root_type_descriptor` (ROOT leaf-type letters: B/b = 8-bit int,
S/s = 16-bit int, I/i = 32-bit int, L/l = 64-bit int, F = 32-bit float,
D = 64-bit float, O = boolean byte). -/
def rootCodeSize (code : String) : Nat :=
  if code = "L" then 8 else if code = "l" then 8
  else if code = "I" then 4 else if code = "i" then 4
  else if code = "S" then 2 else if code = "s" then 2
  else if code = "B" then 1 else if code = "b" then 1
  else if code = "D" then 8 else if code = "F" then 4
  else if code = "O" then 1 else 0

/-- Byte width of each fixed-width ctypes type appearing in
`get_c_type_descriptor` (`ctypes.sizeof`). -/
def ctypeSize (ctype : String) : Nat :=
  if ctype = "c_int64" then 8 else if ctype = "c_uint64" then 8
  else if ctype = "c_int32" then 4 else if ctype = "c_uint32" then 4
  else if ctype = "c_int16" then 2 else if ctype = "c_uint16" then 2
  else if ctype = "c_int8" then 1 else if ctype = "c_uint8" then 1
  else if ctype = "c_double" then 8 else if ctype = "c_float" then 4
  else if ctype = "c_bool" then 1 else 0

/-- The numpy dtype strings in the domain of both mapper dictionaries. -/
def supported_types : List String :=
  ["int64", "uint64", "int32", "uint32", "int16", "uint16",
   "int8", "uint8", "float64", "float32", "bool"]

/-- The ROOT integer branch type codes in the range of
`get_root_type_descriptor`. -/
def integer_root_codes : List String := ["L", "l", "I", "i", "S", "s", "B", "b"]

/-- A TTree as built by `init_tree_from_table`: its name and the ordered
branch list, each branch recorded as (branch name, descriptor string passed
to `TTree.Branch`). -/
structure Tree where
  name : String
  branches : List (String × String)
  deriving DecidableEq

/-- The branch-creation loop of `init_tree_from_table` (line 72–73): one
branch per column, in column order, with descriptor
`column_name + '[n_entries]/' + get_root_type_descriptor(...)`.  The first
column whose dtype is missing from the mapper dictionary raises `KeyError`,
aborting branch creation there. -/
def branch_list {α : Type} : List (Column α) → Except String (List (String × String))
  | [] => .ok []
  | col :: rest =>
    match get_root_type_descriptor col.dtype with
    | none => .error ("KeyError: " ++ col.dtype)
    | some code =>
      match branch_list rest with
      | .error e => .error e
      | .ok bs => .ok ((col.name, col.name ++ "[n_entries]/" ++ code) :: bs)

/-- Function `init_tree_from_table` of `convert_table.py`, lines 57–75: creates the
TTree named after the table, first the length branch `n_entries`
(a `ctypes.c_int64` cell, descriptor `'n_entries/L'`, line 69–70), then one
branch per table column in source order. -/
def init_tree_from_table {α : Type} (table : Table α) : Except String Tree :=
  match branch_list table.columns with
  | .error e => .error e
  | .ok bs => .ok { name := table.name, branches := ("n_entries", "n_entries/L") :: bs }

/-- Fuel-driven helper computing Python's `range(start, stop, c)` for a
positive step `c`; the fuel `stop - start` is enough because each step
advances `start` by `c ≥ 1`. -/
def rangeStepAux (c : Nat) : Nat → Nat → Nat → List Nat
  | 0, _, _ => []
  | fuel + 1, start, stop =>
    if start < stop then start :: rangeStepAux c fuel (start + c) stop else []

/-- Python's `range(start, stop, c)` for a positive step `c`: the indices
`start, start + c, start + 2*c, …` below `stop`. -/
def rangeStep (c start stop : Nat) : List Nat :=
  rangeStepAux c (stop - start) start stop

/-- The chunk start indices produced by `range(0, table.shape[0], chunk_size)`
(line 115) with Python's `range` semantics for arbitrary integer step:
step 0 raises `ValueError`; a negative step counting down from 0 while
`> rows` yields no iterations; a positive step yields
`0, chunk_size, 2*chunk_size, …` below `rows`. -/
def chunk_starts (rows : Nat) (chunk_size : Int) : Except String (List Nat) :=
  if chunk_size = 0 then .error "ValueError: range() arg 3 must not be zero"
  else if chunk_size < 0 then .ok []
  else .ok (rangeStep chunk_size.toNat 0 rows)

/-- One committed TTree entry (one `tree.Fill()`, line 129): the value of
the `n_entries` length cell at fill time and, per branch, the buffer the
branch address points at (the copied column chunk). -/
structure Record (α : Type) where
  n_entries : Nat
  branchData : List (String × List α)
  deriving DecidableEq

/-- The body of the chunk loop (lines 116–129) for the chunk starting at
`index`: `hits = table.read(start=index, stop=index+chunk_size)` reads the
rows `[index, min(index+chunk_size, nrows))`; for each column a copy
`hits[column_name].copy()` becomes the branch buffer; `n_entries.value` is
set to `hits.shape[0]`, the number of rows read; then `tree.Fill()`
commits the record. -/
def mk_record {α : Type} (t : Table α) (c : Nat) (index : Nat) : Record α :=
  { n_entries := min (index + c) t.nrows - index
    branchData := t.columns.map fun col =>
      (col.name, (col.values.drop index).take (min (index + c) t.nrows - index)) }

/-- The whole chunk loop of one table (lines 115–129): one committed record
per chunk start index. -/
def fill_records {α : Type} (t : Table α) (chunk_size : Int) :
    Except String (List (Record α)) :=
  match chunk_starts t.nrows chunk_size with
  | .error e => .error e
  | .ok starts => .ok (starts.map (mk_record t chunk_size.toNat))

/-- The data held for one tree in the output file: its branch descriptors
and its committed records. -/
structure TreeData (α : Type) where
  branches : List (String × String)
  records : List (Record α)
  deriving DecidableEq

/-- Processing of one selected table inside `convert_table` (lines 114–129):
`init_tree_from_table` first, then the chunk loop; a `KeyError` from branch
creation (or the `ValueError` from `range`) propagates and aborts. -/
def process_table {α : Type} (t : Table α) (chunk_size : Int) :
    Except String (String × TreeData α) :=
  match init_tree_from_table t with
  | .error e => .error e
  | .ok tr =>
    match fill_records t chunk_size with
    | .error e => .error e
    | .ok recs => .ok (t.name, { branches := tr.branches, records := recs })

/-- The `names` argument of `convert_table`: Python's `None`, a single
string, or a list of names. -/
inductive NamesArg where
  | noneArg : NamesArg
  | single (s : String) : NamesArg
  | listArg (l : List String) : NamesArg
  deriving DecidableEq

/-- Lines 105–106: `if not isinstance(names, (list, tuple)) and names is not
None: names = [names]` — a single name is wrapped into a one-element list,
`None` stays `None`. -/
def normalize_names : NamesArg → Option (List String)
  | .noneArg => none
  | .single s => some [s]
  | .listArg l => some l

/-- Lines 112–113: a table is processed unless a filter list is given and
the table's name is not in it. -/
def should_process {α : Type} (names : Option (List String)) (t : Table α) : Bool :=
  match names with
  | none => true
  | some ns => ns.contains t.name

/-- One object written by `TFile.Write("", TObject.kOverwrite)`: if the file
already holds a key of that name the new cycle replaces it (`kOverwrite`),
otherwise it is appended. -/
def replace_or_append {α : Type} (file : List (String × TreeData α))
    (e : String × TreeData α) : List (String × TreeData α) :=
  if file.any (fun x => x.1 = e.1) then
    file.map (fun x => if x.1 = e.1 then e else x)
  else file ++ [e]

/-- Call `out_file_root.Write("", TObject.kOverwrite)` (line 131): every tree
currently in memory is written into the file, each overwriting a
previously written cycle of the same name instead of appending a
duplicate. -/
def write_overwrite {α : Type} (file mem : List (String × TreeData α)) :
    List (String × TreeData α) :=
  mem.foldl replace_or_append file

/-- The per-table loop of `convert_table` (lines 111–131) over the tables
yielded by `iter_nodes('/', 'Table')`.  State: `mem` is the list of trees
built so far (they stay attached to the open `TFile`), `file` the content
of the output file after the last `Write`.  Returns the final file content
and the error that aborted the loop, if any. -/
def conv_loop {α : Type} (chunk_size : Int) (names : Option (List String)) :
    List (Table α) → List (String × TreeData α) → List (String × TreeData α) →
    List (String × TreeData α) × Option String
  | [], _mem, file => (file, none)
  | t :: rest, mem, file =>
    if should_process names t then
      match process_table t chunk_size with
      | .error e => (file, some e)
      | .ok entry =>
        conv_loop chunk_size names rest (mem ++ [entry])
          (write_overwrite file (mem ++ [entry]))
    else conv_loop chunk_size names rest mem file

/-- Externally visible I/O events of one `convert_table` call, in order. -/
inductive Event where
  | openSrc : Event
  | openDest : Event
  | raiseErr (msg : String) : Event
  | closeDest : Event
  | closeSrc : Event
  deriving DecidableEq

/-- Result of one `convert_table` call: the outcome (normal return or the
propagated exception), the final content of the output path, and the I/O
event trace. -/
structure ConvertRun (α : Type) where
  outcome : Except String Unit
  file : List (String × TreeData α)
  trace : List Event

/-- Function `convert_table` of `convert_table.py`, lines 78–134, past the filename
normalization: normalizes `names` (lines 105–106), opens the source
(`with tb.open_file`, line 108) and the destination
(`TFile(..., 'RECREATE')`, line 109 — the output path is truncated, so the
run never sees prior content), runs the per-table loop, and on normal
completion calls `out_file_root.Close()` (line 133) before the `with`
block closes the source.  An exception from the loop propagates: the
`with` block still closes the source, but `Close` on the destination is
never reached. -/
def convert_table {α : Type} (tables : List (Table α)) (names : NamesArg)
    (chunk_size : Int) : ConvertRun α :=
  let ns := normalize_names names
  let r := conv_loop chunk_size ns tables [] []
  { outcome := match r.2 with | none => .ok () | some e => .error e
    file := r.1
    trace := [Event.openSrc, Event.openDest] ++
      (match r.2 with
       | none => [Event.closeDest, Event.closeSrc]
       | some e => [Event.raiseErr e, Event.closeSrc]) }

/-- Invoking `convert_table` when the output path currently holds `prev`:
`TFile(output_filename, 'RECREATE')` truncates the existing file, so the
prior content does not influence the run. -/
def convert_at {α : Type} (_prev : List (String × TreeData α))
    (tables : List (Table α)) (names : NamesArg) (chunk_size : Int) : ConvertRun α :=
  convert_table tables names chunk_size

/-- All column dtypes of a table are in the mapper dictionaries. -/
def well_typed {α : Type} (t : Table α) : Bool :=
  t.columns.all fun col => (get_root_type_descriptor col.dtype).isSome

/-- The branch descriptor `init_tree_from_table` builds for one supported
column (line 73). -/
def branch_of {α : Type} (col : Column α) : String × String :=
  (col.name, col.name ++ "[n_entries]/" ++ (get_root_type_descriptor col.dtype).getD "")

/-- The file entry `convert_table` produces for one well-typed selected
table at positive chunk size (proved equal to the output of
`process_table` below). -/
def table_entry {α : Type} (t : Table α) (c : Int) : String × TreeData α :=
  (t.name,
   { branches := ("n_entries", "n_entries/L") :: t.columns.map branch_of
     records := (rangeStep c.toNat 0 t.nrows).map (mk_record t c.toNat) })

/-- A small concrete table used to instantiate the theorems: one supported
int32 column of three rows. -/
def sample_table : Table Int :=
  { name := "tbl", nrows := 3
    columns := [{ name := "x", dtype := "int32", values := [7, 8, 9] }] }

/-- A one-row table with a supported column, used for the chunk-size
counterexample. -/
def one_row_table : Table Int :=
  { name := "one", nrows := 1
    columns := [{ name := "v", dtype := "uint8", values := [1] }] }

/-- A column whose dtype (`float16`) is outside the mapper dictionaries. -/
def bad_col : Column Int := { name := "y", dtype := "float16", values := [0] }

/-- A table with a column whose dtype (`float16`) is outside the mapper
dictionaries. -/
def bad_table : Table Int := { name := "bad", nrows := 1, columns := [bad_col] }

/-- A table with a data column literally named `n_entries`. -/
def collide_table : Table Int :=
  { name := "coll", nrows := 1
    columns := [{ name := "n_entries", dtype := "int64", values := [5] }] }

/-! ## Lemmas about the chunk index list -/

/-- The result of `rangeStepAux` does not depend on the fuel as long as the
fuel is at least `stop - start` (one iteration consumes one unit of fuel and
advances `start` by `c ≥ 1`). -/
lemma rangeStepAux_congr (c : Nat) (hc : 0 < c) :
    ∀ (f g start stop : Nat), stop - start ≤ f → stop - start ≤ g →
      rangeStepAux c f start stop = rangeStepAux c g start stop := by
  intro f
  induction f with
  | zero =>
    intro g start stop hf hg
    have hss : ¬ start < stop := by omega
    cases g with
    | zero => rfl
    | succ g => simp [rangeStepAux, hss]
  | succ f ih =>
    intro g start stop hf hg
    by_cases hss : start < stop
    · cases g with
      | zero => omega
      | succ g =>
        simp only [rangeStepAux, if_pos hss]
        exact congrArg _ (ih g (start + c) stop (by omega) (by omega))
    · cases g with
      | zero => simp [rangeStepAux, hss]
      | succ g => simp [rangeStepAux, hss]

/-- Characteristic equation of `rangeStep` for a positive step. -/
lemma rangeStep_eq (c : Nat) (hc : 0 < c) (start stop : Nat) :
    rangeStep c start stop =
      if start < stop then start :: rangeStep c (start + c) stop else [] := by
  by_cases hss : start < stop
  · rw [if_pos hss]
    unfold rangeStep
    have h1 : stop - start = (stop - start - 1) + 1 := by omega
    rw [h1]
    simp only [rangeStepAux, if_pos hss]
    exact congrArg _ (rangeStepAux_congr c hc _ _ _ _ (by omega) (le_refl _))
  · rw [if_neg hss]
    unfold rangeStep
    have h0 : stop - start = 0 := by omega
    rw [h0]
    rfl

/-- Joining the chunks cut at the indices of `rangeStep c s l.length`
reassembles the tail of `l` from position `s`. -/
lemma rangeStep_join {α : Type} (c : Nat) (hc : 0 < c) (l : List α) :
    ∀ (n s : Nat), l.length - s ≤ n →
      ((rangeStep c s l.length).map (fun idx => (l.drop idx).take c)).flatten
        = l.drop s := by
  intro n
  induction n with
  | zero =>
    intro s hs
    rw [rangeStep_eq c hc, if_neg (by omega)]
    simp [List.drop_of_length_le (by omega : l.length ≤ s)]
  | succ n ih =>
    intro s hs
    rw [rangeStep_eq c hc]
    by_cases h : s < l.length
    · rw [if_pos h]
      simp only [List.map_cons, List.flatten_cons]
      rw [ih (s + c) (by omega)]
      rw [show l.drop (s + c) = (l.drop s).drop c from (List.drop_drop c s l).symm]
      exact List.take_append_drop c (l.drop s)
    · rw [if_neg h]
      simp [List.drop_of_length_le (by omega : l.length ≤ s)]

/-- Number of chunks: the length of `rangeStep c s stop` is the ceiling of
`(stop - s) / c`. -/
lemma rangeStep_length (c : Nat) (hc : 0 < c) (stop : Nat) :
    ∀ (n s : Nat), stop - s ≤ n →
      (rangeStep c s stop).length = (stop - s + c - 1) / c := by
  intro n
  induction n with
  | zero =>
    intro s hs
    rw [rangeStep_eq c hc, if_neg (by omega)]
    have h0 : stop - s = 0 := by omega
    rw [h0, Nat.div_eq_of_lt (by omega : 0 + c - 1 < c)]
    rfl
  | succ n ih =>
    intro s hs
    rw [rangeStep_eq c hc]
    by_cases h : s < stop
    · rw [if_pos h]
      simp only [List.length_cons]
      rw [ih (s + c) (by omega)]
      by_cases hxc : stop - s ≤ c
      · have e1 : stop - (s + c) + c - 1 = c - 1 := by omega
        have e2 : stop - s + c - 1 = (stop - s - 1) + c := by omega
        rw [e1, e2, Nat.add_div_right _ hc,
          Nat.div_eq_of_lt (by omega : c - 1 < c),
          Nat.div_eq_of_lt (by omega : stop - s - 1 < c)]
      · obtain ⟨q, hq⟩ : ∃ q, stop - s - 1 = q + c := ⟨stop - s - 1 - c, by omega⟩
        have e1 : stop - (s + c) + c - 1 = q + c := by omega
        have e2 : stop - s + c - 1 = q + c + c := by omega
        rw [e1, e2, Nat.add_div_right _ hc, Nat.add_div_right _ hc,
          Nat.add_div_right _ hc]
    · rw [if_neg h]
      have h0 : stop - s = 0 := by omega
      rw [h0, Nat.div_eq_of_lt (by omega : 0 + c - 1 < c)]
      rfl

/-- The `k`-th chunk start index is `s + k * c`, and it lies below `stop`. -/
lemma rangeStep_get (c : Nat) (hc : 0 < c) (stop : Nat) :
    ∀ (n s : Nat), stop - s ≤ n →
      ∀ (k : Nat) (hk : k < (rangeStep c s stop).length),
        (rangeStep c s stop)[k] = s + k * c ∧ s + k * c < stop := by
  intro n
  induction n with
  | zero =>
    intro s hs k hk
    rw [rangeStep_eq c hc, if_neg (by omega)] at hk
    simp at hk
  | succ n ih =>
    intro s hs k hk
    by_cases h : s < stop
    · have hstep : rangeStep c s stop = s :: rangeStep c (s + c) stop := by
        rw [rangeStep_eq c hc, if_pos h]
      cases k with
      | zero =>
        refine ⟨?_, by simpa using h⟩
        simp [hstep]
      | succ k =>
        have hk2 : k < (rangeStep c (s + c) stop).length := by
          rw [hstep] at hk
          simpa using hk
        obtain ⟨h1, h2⟩ := ih (s + c) (by omega) k hk2
        have e : (s + c) + k * c = s + (k + 1) * c := by ring
        refine ⟨?_, by rw [← e]; exact h2⟩
        simp only [hstep, List.getElem_cons_succ]
        rw [h1, e]
    · rw [rangeStep_eq c hc, if_neg h] at hk
      simp at hk

/-- Every element of `rangeStep c s stop` lies in `[s, stop)`. -/
lemma rangeStep_mem (c : Nat) (hc : 0 < c) (stop : Nat) :
    ∀ (n s idx : Nat), stop - s ≤ n →
      idx ∈ rangeStep c s stop → s ≤ idx ∧ idx < stop := by
  intro n
  induction n with
  | zero =>
    intro s idx hs hmem
    rw [rangeStep_eq c hc, if_neg (by omega)] at hmem
    simp at hmem
  | succ n ih =>
    intro s idx hs hmem
    by_cases h : s < stop
    · rw [rangeStep_eq c hc, if_pos h] at hmem
      rcases List.mem_cons.1 hmem with h1 | h1
      · omega
      · have := ih (s + c) idx (by omega) h1
        omega
    · rw [rangeStep_eq c hc, if_neg h] at hmem
      simp at hmem

/-! ## Lemmas about the type mapper and tree construction -/

/-- A dtype string outside `supported_types` is missing from the
branch-code dictionary. -/
lemma mapper_none (s : String) (h : s ∉ supported_types) :
    get_root_type_descriptor s = none := by
  simp only [supported_types, List.mem_cons, List.not_mem_nil, or_false] at h
  push_neg at h
  obtain ⟨h1, h2, h3, h4, h5, h6, h7, h8, h9, h10, h11⟩ := h
  simp only [get_root_type_descriptor, if_neg h1, if_neg h2, if_neg h3, if_neg h4,
    if_neg h5, if_neg h6, if_neg h7, if_neg h8, if_neg h9, if_neg h10, if_neg h11]

/-- The domain of the branch-code dictionary is exactly `supported_types`. -/
lemma mapper_domain (s : String) :
    (get_root_type_descriptor s).isSome = true ↔ s ∈ supported_types := by
  constructor
  · intro h
    by_contra hmem
    rw [mapper_none s hmem] at h
    simp at h
  · intro h
    simp only [supported_types, List.mem_cons, List.not_mem_nil, or_false] at h
    rcases h with rfl | rfl | rfl | rfl | rfl | rfl | rfl | rfl | rfl | rfl | rfl <;> rfl

/-- When every column dtype is supported, the branch-creation loop
succeeds and yields one descriptor per column, in order. -/
lemma branch_list_ok {α : Type} :
    ∀ (cols : List (Column α)),
      (∀ col ∈ cols, (get_root_type_descriptor col.dtype).isSome = true) →
      branch_list cols = .ok (cols.map branch_of) := by
  intro cols
  induction cols with
  | nil => intro _; rfl
  | cons col rest ih =>
    intro h
    have hcol := h col (List.mem_cons_self col rest)
    obtain ⟨code, hcode⟩ := Option.isSome_iff_exists.1 hcol
    have hrest := ih (fun c hc => h c (List.mem_cons_of_mem col hc))
    simp only [branch_list, hcode, hrest]
    simp [branch_of, hcode]

/-- A column with an unsupported dtype makes the branch-creation loop
raise (the `KeyError` of the first such column). -/
lemma branch_list_err {α : Type} :
    ∀ (cols : List (Column α)) (col : Column α), col ∈ cols →
      get_root_type_descriptor col.dtype = none →
      ∃ e, branch_list cols = .error e := by
  intro cols
  induction cols with
  | nil => intro col h; simp at h
  | cons c0 rest ih =>
    intro col hmem hbad
    rcases List.mem_cons.1 hmem with h1 | h1
    · subst h1
      exact ⟨"KeyError: " ++ col.dtype, by simp [branch_list, hbad]⟩
    · cases hc0 : get_root_type_descriptor c0.dtype with
      | none => exact ⟨"KeyError: " ++ c0.dtype, by simp [branch_list, hc0]⟩
      | some code =>
        obtain ⟨e, he⟩ := ih col h1 hbad
        exact ⟨e, by simp [branch_list, hc0, he]⟩

/-- Successful tree initialization: length branch `n_entries/L` first, then
the column branches in source order. -/
lemma init_ok {α : Type} (t : Table α) (h : well_typed t = true) :
    init_tree_from_table t =
      .ok { name := t.name
            branches := ("n_entries", "n_entries/L") :: t.columns.map branch_of } := by
  have hall : ∀ col ∈ t.columns, (get_root_type_descriptor col.dtype).isSome = true := by
    simpa [well_typed, List.all_eq_true] using h
  simp [init_tree_from_table, branch_list_ok t.columns hall]

/-- With a positive chunk size, the chunk loop commits one record per index
of `rangeStep`. -/
lemma fill_records_pos {α : Type} (t : Table α) (c : Int) (hc : 0 < c) :
    fill_records t c =
      .ok ((rangeStep c.toNat 0 t.nrows).map (mk_record t c.toNat)) := by
  simp only [fill_records, chunk_starts,
    if_neg (by omega : ¬ c = 0), if_neg (by omega : ¬ c < 0)]

/-- With a negative chunk size, `range(0, rows, chunk_size)` is empty: no
record is ever committed and no error is raised. -/
lemma fill_records_neg {α : Type} (t : Table α) (c : Int) (hc : c < 0) :
    fill_records t c = .ok [] := by
  simp only [fill_records, chunk_starts, if_neg (by omega : ¬ c = 0), if_pos hc]
  rfl

/-- Processing a well-typed table at a positive chunk size yields exactly
the entry described by `table_entry`. -/
lemma process_table_ok {α : Type} (t : Table α) (c : Int) (hc : 0 < c)
    (ht : well_typed t = true) :
    process_table t c = .ok (table_entry t c) := by
  simp [process_table, init_ok t ht, fill_records_pos t c hc, table_entry]

/-- A table containing a column with an unsupported dtype aborts its
processing with an error. -/
lemma process_table_err {α : Type} (t : Table α) (c : Int) (col : Column α)
    (hmem : col ∈ t.columns) (hbad : get_root_type_descriptor col.dtype = none) :
    ∃ e, process_table t c = .error e := by
  obtain ⟨e, he⟩ := branch_list_err t.columns col hmem hbad
  exact ⟨e, by simp [process_table, init_tree_from_table, he]⟩

/-- Name lookup in the per-record branch buffers: with pairwise-distinct
column names the buffer bound for a column is found under its name. -/
lemma lookup_map_name {α : Type} {β : Type} (f : Column α → β) :
    ∀ (cols : List (Column α)), (cols.map Column.name).Nodup →
      ∀ col ∈ cols,
        (cols.map (fun c => (c.name, f c))).lookup col.name = some (f col) := by
  intro cols
  induction cols with
  | nil => intro _ col h; simp at h
  | cons c0 rest ih =>
    intro hnd col hmem
    simp only [List.map_cons, List.nodup_cons] at hnd
    rcases List.mem_cons.1 hmem with h1 | h1
    · subst h1
      simp [List.lookup]
    · have hne : col.name ≠ c0.name := by
        intro he
        exact hnd.1 (he ▸ List.mem_map_of_mem Column.name h1)
      have hbeq : (col.name == c0.name) = false := by
        simpa using hne
      simp only [List.map_cons, List.lookup, hbeq]
      exact ih hnd.2 col h1

/-! ## Lemmas about the overwriting file writes and the driver loop -/

/-- Rewriting an object already present in a file with pairwise-distinct
key names replaces it in place and changes nothing. -/
lemma replace_or_append_mem {α : Type} (file : List (String × TreeData α))
    (e : String × TreeData α) (hnd : (file.map Prod.fst).Nodup) (he : e ∈ file) :
    replace_or_append file e = file := by
  unfold replace_or_append
  have hany : file.any (fun x => x.1 = e.1) = true :=
    List.any_eq_true.2 ⟨e, he, by simp⟩
  rw [if_pos hany]
  have hinj := List.inj_on_of_nodup_map hnd
  have hid : ∀ x ∈ file, (if x.1 = e.1 then e else x) = x := by
    intro x hx
    by_cases hxe : x.1 = e.1
    · rw [if_pos hxe, hinj he hx hxe.symm]
    · rw [if_neg hxe]
  rw [List.map_congr_left hid]
  simp

/-- Writing a set of objects that are all already in the file (with
pairwise-distinct names) leaves the file unchanged. -/
lemma write_overwrite_mem {α : Type} :
    ∀ (mem file : List (String × TreeData α)),
      (file.map Prod.fst).Nodup → (∀ e ∈ mem, e ∈ file) →
      write_overwrite file mem = file := by
  intro mem
  induction mem with
  | nil => intro file _ _; rfl
  | cons e rest ih =>
    intro file hnd hmem
    unfold write_overwrite
    rw [List.foldl_cons,
      replace_or_append_mem file e hnd (hmem e (List.mem_cons_self e rest))]
    exact ih file hnd (fun x hx => hmem x (List.mem_cons_of_mem e hx))

/-- Writing the previous objects plus one new name appends exactly that
object: the `kOverwrite` write after a new table adds one entry and
duplicates nothing. -/
lemma write_overwrite_append_new {α : Type} (file : List (String × TreeData α))
    (e : String × TreeData α) (hnd : (file.map Prod.fst).Nodup)
    (hnew : e.1 ∉ file.map Prod.fst) :
    write_overwrite file (file ++ [e]) = file ++ [e] := by
  have h1 : write_overwrite file (file ++ [e])
      = replace_or_append (write_overwrite file file) e := by
    unfold write_overwrite
    rw [List.foldl_append]
    rfl
  rw [h1, write_overwrite_mem file file hnd (fun _ h => h)]
  unfold replace_or_append
  rw [if_neg]
  intro hany
  obtain ⟨x, hx, hxe⟩ := List.any_eq_true.1 hany
  simp only [decide_eq_true_eq] at hxe
  exact hnew (hxe ▸ List.mem_map_of_mem Prod.fst hx)

/-- The driver loop on well-typed selected tables with pairwise-distinct
names: starting from a file that equals the in-memory object list, it
completes without error and the final file holds the previous entries
followed by one entry per selected table, in source order. -/
lemma conv_loop_ok {α : Type} (c : Int) (hc : 0 < c) (ns : Option (List String)) :
    ∀ (ts : List (Table α)) (mem : List (String × TreeData α)),
      (∀ t ∈ ts, should_process ns t = true → well_typed t = true) →
      ((mem.map Prod.fst) ++ (ts.filter (should_process ns)).map Table.name).Nodup →
      conv_loop c ns ts mem mem =
        (mem ++ (ts.filter (should_process ns)).map (fun t => table_entry t c),
         none) := by
  intro ts
  induction ts with
  | nil => intro mem _ _; simp [conv_loop]
  | cons t rest ih =>
    intro mem hwt hnd
    by_cases hp : should_process ns t = true
    · have hwtt := hwt t (List.mem_cons_self t rest) hp
      have hfil : (t :: rest).filter (should_process ns)
          = t :: rest.filter (should_process ns) := by
        simp [List.filter_cons, hp]
      rw [hfil] at hnd
      simp only [List.map_cons] at hnd
      have hmemnd : (mem.map Prod.fst).Nodup := (List.nodup_append.1 hnd).1
      have hnew : (table_entry t c).1 ∉ mem.map Prod.fst := by
        have hdisj := (List.nodup_append.1 hnd).2.2
        intro hin
        exact hdisj hin (List.mem_cons_self _ _)
      simp only [conv_loop, if_pos hp, process_table_ok t c hc hwtt]
      rw [write_overwrite_append_new mem (table_entry t c) hmemnd hnew]
      have hnd2 : (((mem ++ [table_entry t c]).map Prod.fst)
          ++ (rest.filter (should_process ns)).map Table.name).Nodup := by
        simp only [List.map_append, List.map_cons, List.map_nil]
        simpa [List.append_assoc] using hnd
      rw [ih (mem ++ [table_entry t c])
        (fun x hx hpx => hwt x (List.mem_cons_of_mem t hx) hpx) hnd2]
      simp [hfil, List.append_assoc]
    · have hfil : (t :: rest).filter (should_process ns)
          = rest.filter (should_process ns) := by
        simp [List.filter_cons, hp]
      simp only [conv_loop, if_neg hp]
      rw [ih mem (fun x hx hpx => hwt x (List.mem_cons_of_mem t hx) hpx)
        (by rwa [hfil] at hnd)]
      rw [hfil]

/-- Characterization of a fully successful `convert_table` run. -/
lemma convert_table_ok {α : Type} (tables : List (Table α)) (names : NamesArg)
    (c : Int) (hc : 0 < c)
    (hwt : ∀ t ∈ tables, should_process (normalize_names names) t = true →
      well_typed t = true)
    (hnd : ((tables.filter (should_process (normalize_names names))).map
      Table.name).Nodup) :
    convert_table tables names c =
      { outcome := .ok ()
        file := (tables.filter (should_process (normalize_names names))).map
          (fun t => table_entry t c)
        trace := [Event.openSrc, Event.openDest, Event.closeDest,
          Event.closeSrc] } := by
  simp only [convert_table]
  rw [conv_loop_ok c hc (normalize_names names) tables [] hwt (by simpa using hnd)]
  rfl

/-- Arithmetic fact about the last chunk: with `0 < cN` and `0 < R`, the
length of the last of `ceil(R / cN)` chunks is `cN` when `cN` divides `R`
and `R mod cN` (that is, `R - cN * (R / cN)`) otherwise. -/
lemma last_chunk_len (cN R : Nat) (hc : 0 < cN) (hR : 0 < R) :
    min cN (R - ((R + cN - 1) / cN - 1) * cN) =
      if R % cN = 0 then cN else R - cN * (R / cN) := by
  have hdm := Nat.div_add_mod R cN
  have hmod := Nat.mod_lt R hc
  set q := R / cN with hq
  set r := R % cN with hr
  by_cases h0 : r = 0
  · have hq1 : 1 ≤ q := by
      rcases Nat.eq_zero_or_pos q with h | h
      · rw [h, Nat.mul_zero] at hdm
        omega
      · exact h
    have e1 : R + cN - 1 = cN * q + (cN - 1) := by omega
    have e2 : (R + cN - 1) / cN = q := by
      rw [e1, Nat.mul_add_div hc, Nat.div_eq_of_lt (by omega : cN - 1 < cN),
        Nat.add_zero]
    have e3 : (q - 1) * cN = cN * q - cN := by
      rw [Nat.sub_mul, Nat.one_mul, Nat.mul_comm]
    have e4 : cN ≤ cN * q := by
      calc cN = cN * 1 := (Nat.mul_one cN).symm
      _ ≤ cN * q := Nat.mul_le_mul_left cN hq1
    rw [if_pos h0, e2, e3]
    omega
  · have hmul : cN * (q + 1) = cN * q + cN := by ring
    have e1 : R + cN - 1 = cN * (q + 1) + (r - 1) := by omega
    have e2 : (R + cN - 1) / cN = q + 1 := by
      rw [e1, Nat.mul_add_div hc, Nat.div_eq_of_lt (by omega : r - 1 < cN),
        Nat.add_zero]
    have e3 : q * cN = cN * q := Nat.mul_comm q cN
    rw [if_neg h0, e2, Nat.add_sub_cancel, e3]
    omega

/-! ## The claims -/

/-- C1: Round-trip column identity: for every supported scalar type and
every row count (any well-typed table), converting the table with a
positive chunk size and then concatenating, in record order, the first
`n_entries` elements of a column's branch buffer across all committed
records yields exactly the original column values, in original row
order. -/
theorem round_trip_column_identity {α : Type} (t : Table α) (c : Int)
    (hc : 0 < c) (ht : well_typed t = true)
    (hlen : ∀ col ∈ t.columns, col.values.length = t.nrows)
    (hnames : (t.columns.map Column.name).Nodup) :
    ∃ td : TreeData α, process_table t c = .ok (t.name, td) ∧
      ∀ col ∈ t.columns,
        ((td.records.map (fun r =>
            ((r.branchData.lookup col.name).getD []).take r.n_entries)).flatten)
          = col.values := by
  have hcN : 0 < c.toNat := by omega
  refine ⟨(table_entry t c).2, by rw [process_table_ok t c hc ht]; rfl, ?_⟩
  intro col hcol
  show (((rangeStep c.toNat 0 t.nrows).map (mk_record t c.toNat)).map
    (fun r => ((r.branchData.lookup col.name).getD []).take r.n_entries)).flatten
    = col.values
  rw [List.map_map]
  simp only [Function.comp_def]
  have hpt : ∀ idx ∈ rangeStep c.toNat 0 t.nrows,
      ((((mk_record t c.toNat idx).branchData.lookup col.name).getD []).take
        (mk_record t c.toNat idx).n_entries)
        = (col.values.drop idx).take c.toNat := by
    intro idx hidx
    have hbounds := rangeStep_mem c.toNat hcN t.nrows t.nrows 0 idx (by omega) hidx
    have hlook : (mk_record t c.toNat idx).branchData.lookup col.name
        = some ((col.values.drop idx).take (min (idx + c.toNat) t.nrows - idx)) :=
      lookup_map_name
        (fun cl => (cl.values.drop idx).take (min (idx + c.toNat) t.nrows - idx))
        t.columns hnames col hcol
    rw [show (mk_record t c.toNat idx).n_entries
      = min (idx + c.toNat) t.nrows - idx from rfl]
    rw [hlook, Option.getD_some, List.take_take, Nat.min_self]
    rw [List.take_eq_take]
    have hdl : (col.values.drop idx).length = t.nrows - idx := by
      rw [List.length_drop, hlen col hcol]
    rw [hdl]
    omega
  rw [List.map_congr_left hpt]
  have hl : col.values.length = t.nrows := hlen col hcol
  rw [← hl]
  rw [rangeStep_join c.toNat hcN col.values col.values.length 0 (by omega)]
  exact List.drop_zero col.values

/-- C2: Chunk count and per-record lengths: a well-typed table with `R`
rows converted at positive chunk size `C` commits exactly `ceil(R / C)`
records; record `k` has length value `min(C, R - k*C)`; `R = 0` yields zero
records with the structure still created; the last record's length is `C`
when `C` divides `R` and `R - C * floor(R / C)` otherwise. -/
theorem chunk_count_and_record_lengths {α : Type} (t : Table α) (c : Int)
    (hc : 0 < c) (ht : well_typed t = true) :
    ∃ td : TreeData α, process_table t c = .ok (t.name, td)
      ∧ td.records.length = (t.nrows + c.toNat - 1) / c.toNat
      ∧ (∀ (k : Nat) (hk : k < td.records.length),
          td.records[k].n_entries = min c.toNat (t.nrows - k * c.toNat))
      ∧ (t.nrows = 0 → td.records = [])
      ∧ ∀ (hne : td.records ≠ []),
          (td.records.getLast hne).n_entries =
            if t.nrows % c.toNat = 0 then c.toNat
            else t.nrows - c.toNat * (t.nrows / c.toNat) := by
  have hcN : 0 < c.toNat := by omega
  have hcount : ((rangeStep c.toNat 0 t.nrows).map (mk_record t c.toNat)).length
      = (t.nrows + c.toNat - 1) / c.toNat := by
    rw [List.length_map,
      rangeStep_length c.toNat hcN t.nrows t.nrows 0 (by omega), Nat.sub_zero]
  have hmin : ∀ (k : Nat)
      (hk : k < ((rangeStep c.toNat 0 t.nrows).map (mk_record t c.toNat)).length),
      (((rangeStep c.toNat 0 t.nrows).map (mk_record t c.toNat))[k]).n_entries
        = min c.toNat (t.nrows - k * c.toNat) := by
    intro k hk
    have hk2 : k < (rangeStep c.toNat 0 t.nrows).length := by
      simpa using hk
    obtain ⟨h1, h2⟩ := rangeStep_get c.toNat hcN t.nrows t.nrows 0 (by omega) k hk2
    rw [List.getElem_map]
    show min ((rangeStep c.toNat 0 t.nrows)[k] + c.toNat) t.nrows
      - (rangeStep c.toNat 0 t.nrows)[k] = min c.toNat (t.nrows - k * c.toNat)
    rw [h1]
    generalize k * c.toNat = x at h2 ⊢
    omega
  refine ⟨(table_entry t c).2, by rw [process_table_ok t c hc ht]; rfl,
    hcount, hmin, ?_, ?_⟩
  · intro h
    show ((rangeStep c.toNat 0 t.nrows).map (mk_record t c.toNat)) = []
    rw [h, rangeStep_eq c.toNat hcN, if_neg (by omega)]
    rfl
  · intro hne
    have hR : 0 < t.nrows := by
      by_contra hR
      apply hne
      show ((rangeStep c.toNat 0 t.nrows).map (mk_record t c.toNat)) = []
      rw [show t.nrows = 0 from by omega, rangeStep_eq c.toNat hcN,
        if_neg (by omega)]
      rfl
    have hpos : 0 < ((rangeStep c.toNat 0 t.nrows).map (mk_record t c.toNat)).length :=
      List.length_pos.2 hne
    have hlast := List.getLast_eq_getElem
      ((rangeStep c.toNat 0 t.nrows).map (mk_record t c.toNat)) hne
    show (((rangeStep c.toNat 0 t.nrows).map (mk_record t c.toNat)).getLast
      hne).n_entries = _
    rw [hlast, hmin _ (by omega), hcount,
      last_chunk_len c.toNat t.nrows hcN hR]

/-- C3: Unsupported type rejection: the type mapper is defined for exactly
the eleven scalar types of `supported_types`, and a table containing a
column whose scalar type is outside this set aborts the processing of that
table with a hard error (the column is never silently skipped). -/
theorem unsupported_type_rejection {α : Type} (s : String) (t : Table α)
    (col : Column α) (c : Int) (hmem : col ∈ t.columns)
    (hbad : get_root_type_descriptor col.dtype = none) :
    ((get_root_type_descriptor s).isSome = true ↔ s ∈ supported_types)
    ∧ ∃ e, process_table t c = .error e :=
  ⟨mapper_domain s, process_table_err t c col hmem hbad⟩

/-- C3 witness: instantiated at the dtype string `float16` and the concrete
table `bad_table`. -/
theorem unsupported_type_rejection_witness :
    bad_col ∈ bad_table.columns
    ∧ get_root_type_descriptor bad_col.dtype = none
    ∧ (((get_root_type_descriptor "float16").isSome = true
        ↔ "float16" ∈ supported_types)
      ∧ ∃ e, process_table bad_table 100 = .error e) :=
  ⟨by decide, by decide,
    unsupported_type_rejection "float16" bad_table bad_col 100
      (by decide) (by decide)⟩

/-- C4: Self-consistent float64 mapping: the mapper sends `float64` to the
64-bit double branch code `D` (8 bytes) and to `ctypes.c_double` (8 bytes),
and for every supported scalar type the byte width of the declared branch
type code equals the byte width of the ctypes element type used for the
memory copy. -/
theorem float64_self_consistent_mapping :
    get_root_type_descriptor "float64" = some "D"
    ∧ rootCodeSize "D" = 8
    ∧ (get_c_type_descriptor "float64").map ctypeSize = some 8
    ∧ (supported_types.all fun ty =>
        (get_root_type_descriptor ty).map rootCodeSize
          == (get_c_type_descriptor ty).map ctypeSize) = true :=
  ⟨rfl, rfl, rfl, by decide⟩

/-- C5: Schema mirroring: for a well-typed table, `init_tree_from_table`
creates the length branch first, declared `n_entries/L` with the 64-bit
code `L` — the widest integer branch type the mapper supports — and then
one branch per source column, so the branch names after the length branch
equal the source column names, case-sensitively and in order. -/
theorem schema_mirroring {α : Type} (t : Table α) (ht : well_typed t = true) :
    ∃ tr : Tree, init_tree_from_table t = .ok tr
      ∧ tr.branches.head? = some ("n_entries", "n_entries/L")
      ∧ (tr.branches.map Prod.fst).drop 1 = t.columns.map Column.name
      ∧ rootCodeSize "L" = 8
      ∧ ∀ code ∈ integer_root_codes, rootCodeSize code ≤ rootCodeSize "L" := by
  refine ⟨_, init_ok t ht, rfl, ?_, rfl, by decide⟩
  simp [branch_of]

/-- C5 witness: instantiated at the concrete table `sample_table`. -/
theorem schema_mirroring_witness :
    well_typed sample_table = true
    ∧ ∃ tr : Tree, init_tree_from_table sample_table = .ok tr
      ∧ tr.branches.head? = some ("n_entries", "n_entries/L")
      ∧ (tr.branches.map Prod.fst).drop 1 = sample_table.columns.map Column.name
      ∧ rootCodeSize "L" = 8
      ∧ ∀ code ∈ integer_root_codes, rootCodeSize code ≤ rootCodeSize "L" :=
  ⟨by decide, schema_mirroring sample_table (by decide)⟩

/-- C10: Length-branch name collision is not validated: for a well-typed
table with a data column literally named `n_entries`, schema creation
raises no error and the resulting branch list carries the name `n_entries`
at least twice (the data branch shadows the length branch). -/
theorem length_branch_collision_unchecked {α : Type} (t : Table α)
    (ht : well_typed t = true)
    (hcol : "n_entries" ∈ t.columns.map Column.name) :
    ∃ tr : Tree, init_tree_from_table t = .ok tr
      ∧ 2 ≤ (tr.branches.map Prod.fst).count "n_entries" := by
  refine ⟨_, init_ok t ht, ?_⟩
  have h1 : ((("n_entries", "n_entries/L") :: t.columns.map branch_of).map
      Prod.fst) = "n_entries" :: t.columns.map Column.name := by
    simp [branch_of]
  rw [h1, List.count_cons_self]
  have := List.count_pos_iff.2 hcol
  omega

/-- C10 witness: instantiated at the concrete table `collide_table`. -/
theorem length_branch_collision_unchecked_witness :
    well_typed collide_table = true
    ∧ "n_entries" ∈ collide_table.columns.map Column.name
    ∧ ∃ tr : Tree, init_tree_from_table collide_table = .ok tr
      ∧ 2 ≤ (tr.branches.map Prod.fst).count "n_entries" :=
  ⟨by decide, by decide,
    length_branch_collision_unchecked collide_table (by decide) (by decide)⟩

/-- C1 witness: instantiated at `sample_table` with chunk size 2 (three
int32 rows cut into chunks of 2 and 1). -/
theorem round_trip_column_identity_witness :
    (0 : Int) < 2 ∧ well_typed sample_table = true
    ∧ (∀ col ∈ sample_table.columns, col.values.length = sample_table.nrows)
    ∧ (sample_table.columns.map Column.name).Nodup
    ∧ ∃ td : TreeData Int, process_table sample_table 2 = .ok (sample_table.name, td) ∧
        ∀ col ∈ sample_table.columns,
          ((td.records.map (fun r =>
              ((r.branchData.lookup col.name).getD []).take r.n_entries)).flatten)
            = col.values :=
  ⟨by decide, by decide, by decide, by decide,
    round_trip_column_identity sample_table 2 (by decide) (by decide)
      (by decide) (by decide)⟩

/-- C2 witness: instantiated at `sample_table` with chunk size 2
(`ceil(3 / 2) = 2` records of lengths 2 and 1). -/
theorem chunk_count_and_record_lengths_witness :
    (0 : Int) < 2 ∧ well_typed sample_table = true
    ∧ ∃ td : TreeData Int, process_table sample_table 2 = .ok (sample_table.name, td)
      ∧ td.records.length = (sample_table.nrows + (2 : Int).toNat - 1) / (2 : Int).toNat
      ∧ (∀ (k : Nat) (hk : k < td.records.length),
          td.records[k].n_entries
            = min (2 : Int).toNat (sample_table.nrows - k * (2 : Int).toNat))
      ∧ (sample_table.nrows = 0 → td.records = [])
      ∧ ∀ (hne : td.records ≠ []),
          (td.records.getLast hne).n_entries =
            if sample_table.nrows % (2 : Int).toNat = 0 then (2 : Int).toNat
            else sample_table.nrows - (2 : Int).toNat * (sample_table.nrows / (2 : Int).toNat) :=
  ⟨by decide, by decide, chunk_count_and_record_lengths sample_table 2 (by decide) (by decide)⟩

/-- C6: Name filter semantics: exactly the tables whose names pass the
filter are converted (all tables with no filter); a single name is
normalized to a one-element list; a filter list matching no table silently
produces an empty output file with no error. -/
theorem name_filter_semantics {α : Type} (tables : List (Table α)) (arg : NamesArg)
    (c : Int) (s : String) (ns : List String) (hc : 0 < c)
    (hwt : ∀ t ∈ tables, should_process (normalize_names arg) t = true →
      well_typed t = true)
    (hnd : ((tables.filter (should_process (normalize_names arg))).map
      Table.name).Nodup)
    (hmiss : ∀ t ∈ tables, t.name ∉ ns) :
    ((convert_table tables arg c).file.map Prod.fst
      = (tables.filter (should_process (normalize_names arg))).map Table.name)
    ∧ (convert_table tables arg c).outcome = .ok ()
    ∧ normalize_names (NamesArg.single s) = some [s]
    ∧ (∀ u : Table α, should_process none u = true)
    ∧ (convert_table tables (NamesArg.listArg ns) c).file = []
    ∧ (convert_table tables (NamesArg.listArg ns) c).outcome = .ok () := by
  have hmain := convert_table_ok tables arg c hc hwt hnd
  have hfilter : tables.filter (should_process (some ns)) = [] := by
    apply List.filter_eq_nil_iff.2
    intro t htm
    simp only [should_process, Bool.not_eq_true]
    have := hmiss t htm
    simpa using this
  have hsecond := convert_table_ok tables (NamesArg.listArg ns) c hc
    (by
      intro t htm hp
      exfalso
      have hmem : t ∈ tables.filter (should_process (some ns)) :=
        List.mem_filter.2 ⟨htm, hp⟩
      rw [hfilter] at hmem
      simp at hmem)
    (by simp [normalize_names, hfilter])
  refine ⟨?_, ?_, rfl, fun u => rfl, ?_, ?_⟩
  · rw [hmain]
    simp [table_entry]
  · rw [hmain]
  · rw [hsecond]
    simp [normalize_names, hfilter]
  · rw [hsecond]

/-- C6 witness: a single-table source, a passing list filter, and a
missing-name filter. -/
theorem name_filter_semantics_witness :
    (0 : Int) < 2
    ∧ (∀ t ∈ [sample_table],
        should_process (normalize_names (NamesArg.listArg ["tbl"])) t = true →
        well_typed t = true)
    ∧ ((([sample_table].filter
        (should_process (normalize_names (NamesArg.listArg ["tbl"])))).map
        Table.name).Nodup)
    ∧ (∀ t ∈ [sample_table], t.name ∉ ["zzz"])
    ∧ ((((convert_table [sample_table] (NamesArg.listArg ["tbl"]) 2).file.map
          Prod.fst)
        = ([sample_table].filter
            (should_process (normalize_names (NamesArg.listArg ["tbl"])))).map
            Table.name)
      ∧ (convert_table [sample_table] (NamesArg.listArg ["tbl"]) 2).outcome = .ok ()
      ∧ normalize_names (NamesArg.single "a") = some ["a"]
      ∧ (∀ u : Table Int, should_process none u = true)
      ∧ (convert_table [sample_table] (NamesArg.listArg ["zzz"]) 2).file = []
      ∧ (convert_table [sample_table] (NamesArg.listArg ["zzz"]) 2).outcome
          = .ok ()) :=
  ⟨by decide, by decide, by decide, by decide,
    name_filter_semantics [sample_table] (NamesArg.listArg ["tbl"]) 2 "a" ["zzz"]
      (by decide) (by decide) (by decide) (by decide)⟩

/-- C7: Idempotent re-run with overwrite: re-running the conversion on the
output path produced by a first run yields exactly the same result (the
`RECREATE` open truncates prior content), and the file of a run holds
exactly one structure per selected source table — pairwise-distinct entry
names, in source order — because each per-table `Write` call uses the
overwrite mode rather than appending a duplicate cycle. -/
theorem idempotent_rerun_overwrite {α : Type} (prev : List (String × TreeData α))
    (tables : List (Table α)) (arg : NamesArg) (c : Int) (hc : 0 < c)
    (hwt : ∀ t ∈ tables, should_process (normalize_names arg) t = true →
      well_typed t = true)
    (hnd : ((tables.filter (should_process (normalize_names arg))).map
      Table.name).Nodup) :
    convert_at (convert_at prev tables arg c).file tables arg c
      = convert_at prev tables arg c
    ∧ ((convert_at prev tables arg c).file.map Prod.fst).Nodup
    ∧ (convert_at prev tables arg c).file.map Prod.fst
      = (tables.filter (should_process (normalize_names arg))).map Table.name := by
  have hmain := convert_table_ok tables arg c hc hwt hnd
  have hnames : (convert_table tables arg c).file.map Prod.fst
      = (tables.filter (should_process (normalize_names arg))).map Table.name := by
    rw [hmain]
    simp [table_entry]
  exact ⟨rfl, by rw [show convert_at prev tables arg c = convert_table tables arg c
    from rfl, hnames]; exact hnd, hnames⟩

/-- C7 witness: two runs over a one-table source at chunk size 2. -/
theorem idempotent_rerun_overwrite_witness :
    (0 : Int) < 2
    ∧ (∀ t ∈ [sample_table],
        should_process (normalize_names NamesArg.noneArg) t = true →
        well_typed t = true)
    ∧ ((([sample_table].filter
        (should_process (normalize_names NamesArg.noneArg))).map Table.name).Nodup)
    ∧ (convert_at (convert_at [] [sample_table] NamesArg.noneArg 2).file
          [sample_table] NamesArg.noneArg 2
        = convert_at [] [sample_table] NamesArg.noneArg 2
      ∧ ((convert_at [] [sample_table] NamesArg.noneArg 2).file.map Prod.fst).Nodup
      ∧ (convert_at [] [sample_table] NamesArg.noneArg 2).file.map Prod.fst
        = ([sample_table].filter
            (should_process (normalize_names NamesArg.noneArg))).map Table.name) :=
  ⟨by decide, by decide, by decide,
    idempotent_rerun_overwrite [] [sample_table] NamesArg.noneArg 2
      (by decide) (by decide) (by decide)⟩

/-- C8 counterexample: `convert` with the non-positive chunk size `-1` on a
one-row table does not fail at all — it returns normally and commits an
empty structure (zero records) for the table, so the claimed
`InvalidArgument` failure does not happen. -/
theorem chunk_size_rejection_counterexample :
    (convert_table [one_row_table] NamesArg.noneArg (-1)).outcome = .ok ()
    ∧ (convert_table [one_row_table] NamesArg.noneArg (-1)).file
      = [("one",
          { branches := [("n_entries", "n_entries/L"), ("v", "v[n_entries]/b")]
            records := [] })] :=
  ⟨rfl, by decide⟩

/-- C8 amended: `convert_table` performs no chunk-size validation.  A
negative chunk size makes the chunk loop empty: the run completes without
any error and commits an empty structure for the table.  A zero chunk size
raises `ValueError` from the `range` call of the chunk loop — after both
containers have been opened (the raise appears in the trace strictly after
the two open events), not fast before I/O, and not as `InvalidArgument`. -/
theorem chunk_size_not_validated {α : Type} (t : Table α) (c : Int)
    (ht : well_typed t = true) :
    (c < 0 → (convert_table [t] NamesArg.noneArg c).outcome = .ok ()
      ∧ (convert_table [t] NamesArg.noneArg c).file
        = [(t.name,
            { branches := ("n_entries", "n_entries/L") :: t.columns.map branch_of
              records := [] })])
    ∧ (c = 0 → (convert_table [t] NamesArg.noneArg c).outcome
        = .error "ValueError: range() arg 3 must not be zero"
      ∧ (convert_table [t] NamesArg.noneArg c).trace
        = [Event.openSrc, Event.openDest,
           Event.raiseErr "ValueError: range() arg 3 must not be zero",
           Event.closeSrc]) := by
  constructor
  · intro hneg
    have hproc : process_table t c = .ok (t.name,
        { branches := ("n_entries", "n_entries/L") :: t.columns.map branch_of
          records := [] }) := by
      simp [process_table, init_ok t ht, fill_records_neg t c hneg]
    constructor
    · simp [convert_table, conv_loop, should_process, normalize_names, hproc,
        write_overwrite, replace_or_append]
    · simp [convert_table, conv_loop, should_process, normalize_names, hproc,
        write_overwrite, replace_or_append]
  · intro h0
    have hfill : fill_records t c
        = .error "ValueError: range() arg 3 must not be zero" := by
      simp [fill_records, chunk_starts, h0]
    have hproc : process_table t c
        = .error "ValueError: range() arg 3 must not be zero" := by
      simp [process_table, init_ok t ht, hfill]
    constructor <;>
      simp [convert_table, conv_loop, should_process, normalize_names, hproc]

/-- C8 amended witness: instantiated at `sample_table` and chunk size -1. -/
theorem chunk_size_not_validated_witness :
    well_typed sample_table = true
    ∧ (((-1 : Int) < 0 →
        (convert_table [sample_table] NamesArg.noneArg (-1)).outcome = .ok ()
        ∧ (convert_table [sample_table] NamesArg.noneArg (-1)).file
          = [(sample_table.name,
              { branches := ("n_entries", "n_entries/L")
                  :: sample_table.columns.map branch_of
                records := [] })])
      ∧ ((-1 : Int) = 0 →
        (convert_table [sample_table] NamesArg.noneArg (-1)).outcome
          = .error "ValueError: range() arg 3 must not be zero"
        ∧ (convert_table [sample_table] NamesArg.noneArg (-1)).trace
          = [Event.openSrc, Event.openDest,
             Event.raiseErr "ValueError: range() arg 3 must not be zero",
             Event.closeSrc])) :=
  ⟨by decide, chunk_size_not_validated sample_table (-1) (by decide)⟩

/-- C9 counterexample: on the error path triggered by an unsupported column
dtype, the source container is closed (the scoped `with` block) but the
destination container is never closed — `closeDest` is absent from the
trace while the error propagates — contradicting the claim that both
containers are closed on every exit. -/
theorem cleanup_counterexample :
    (convert_table [bad_table] NamesArg.noneArg 100).outcome
      = .error "KeyError: float16"
    ∧ Event.closeSrc ∈ (convert_table [bad_table] NamesArg.noneArg 100).trace
    ∧ Event.closeDest ∉ (convert_table [bad_table] NamesArg.noneArg 100).trace :=
  ⟨rfl, by decide, by decide⟩

/-- C9 amended: the source container is closed on every exit path (it is
opened by a scoped `with` block), but the destination container is closed
exactly when the run completes normally: an error propagating out of the
conversion leaves the destination file unclosed. -/
theorem cleanup_src_always_dest_on_success {α : Type} (tables : List (Table α))
    (names : NamesArg) (c : Int) :
    Event.closeSrc ∈ (convert_table tables names c).trace
    ∧ (Event.closeDest ∈ (convert_table tables names c).trace
        ↔ (convert_table tables names c).outcome = .ok ()) := by
  simp only [convert_table]
  rcases h : (conv_loop c (normalize_names names) tables [] []).2 with _ | e <;>
    simp [h]

end PyTables2RootTTree
